import Mathlib

/-!
Shallow embedding of the query-building and view-state engine of
`pyramid_admin/contrib/sqla/view.py` (class `ModelView`), together with the
pieces of external behaviour the view code builds on (SQL `ILIKE` matching,
SQLAlchemy query composition, the composite primary-key codec of the
`tools` module).

Python strings are embedded as `List Char`; a database row as a list of
column values; an SQLAlchemy `Query` as a record of its row source, its
accumulated `WHERE` predicates, the join calls it has performed, and its
ordering / pagination state.  LEFT OUTER joins (the only kind the search,
filter and sort paths use, `inner_join=False` throughout `get_list`) are
modelled as row-preserving: a searchable or filterable column reached
through a join is modelled as a total accessor on the row.
-/

/-- Python strings are embedded as lists of characters. -/
abbrev Str := List Char

/-- Lower-casing a string, as SQL `ILIKE` does on both sides before matching. -/
def lowerStr (s : Str) : Str := s.map Char.toLower

/-- Python `s.split(sep)` for a one-character separator: splits at every
occurrence of the separator and keeps empty fragments
(so `''.split(' ') == ['']` and `'a  b'.split(' ') == ['a', '', 'b']`). -/
def splitOnChar (sep : Char) : Str → List Str
  | [] => [[]]
  | c :: cs =>
    match splitOnChar sep cs with
    | [] => [[]]
    | w :: ws => if c = sep then [] :: w :: ws else (c :: w) :: ws

/-- SQL `LIKE` pattern matching with `%` wildcards.  (`_` never occurs in the
patterns this code base produces, so it is treated as a literal character.) -/
def likeMatch : Str → Str → Bool
  | [], v => v.isEmpty
  | p :: ps, v =>
    if p = '%' then v.tails.any (fun s => likeMatch ps s)
    else
      match v with
      | [] => false
      | c :: vs => (p = c) && likeMatch ps vs

/-- Embedding of `column.ilike(stmt)`: case-insensitive SQL `LIKE` of the column value
against the pattern. -/
def ilike (v pat : Str) : Bool := likeMatch (lowerStr pat) (lowerStr v)

/-- Modelled from the spec: `tools.parse_like_term` is not under `src/`; its
behaviour is modelled from the search rules documented on
`column_searchable_list` (view.py lines 98-113): a term prefixed with `^`
becomes the pattern `term%`, a term prefixed with `=` becomes the exact
pattern `term`, and any other term becomes `%term%`. -/
def parse_like_term (term : Str) : Str :=
  match term with
  | [] => '%' :: ([] ++ ['%'])
  | c :: rest =>
    if c = '^' then rest ++ ['%']
    else if c = '=' then rest
    else '%' :: ((c :: rest) ++ ['%'])

/-- Whether `v` starts with `p` (executable). -/
def startsWithB : Str → Str → Bool
  | [], _ => true
  | _ :: _, [] => false
  | c :: ps, d :: vs => (c = d) && startsWithB ps vs

/-- Whether `v` contains `p` as a contiguous substring (executable). -/
def containsSubB (p v : Str) : Bool := v.tails.any (fun s => startsWithB p s)

/-! ### Rows, join bookkeeping and the query model -/

/-- A database row: the list of its column values. -/
abbrev Row := List Str

/-- A join-path element, as produced by `_get_field_with_path`: either a raw
`Table` object or a relationship attribute (`InstrumentedAttribute`). -/
inductive Item
  | table (t : Nat)
  | rel (r : Nat)
deriving DecidableEq, Repr

/-- A key of the `joins` memo dictionary.  `get_list` seeds the dictionary
with bare table keys (`joins[table] = None`, view.py line 913) while
`_apply_path_joins` reads and writes tuple keys `(inner_join, item)`
(view.py line 391); a Python dict holds both shapes side by side. -/
inductive MemoKey
  | plain (i : Item)
  | flagged (b : Bool) (i : Item)
deriving DecidableEq, Repr

/-- The join memo: a dictionary from memo keys to the alias stored for the
join (`None` for table items). -/
abbrev Memo := List (MemoKey × Option Nat)

/-- Dictionary lookup (`joins.get(key)` / `key in joins`). -/
def mlookup : Memo → MemoKey → Option (Option Nat)
  | [], _ => none
  | (k, v) :: rest, key => if k = key then some v else mlookup rest key

/-- Dictionary assignment `joins[key] = alias` (only ever performed at a key
that is absent, see the guard in `_apply_path_joins`). -/
def minsert (m : Memo) (k : MemoKey) (v : Option Nat) : Memo := m ++ [(k, v)]

/-- An SQLAlchemy query over the model's rows: the row source, accumulated
`WHERE` predicates (`.filter` is conjunctive), the record of join calls the
query has performed (flag, item, alias, previous alias), a counter for fresh
`aliased(...)` objects, and ordering / pagination state. -/
structure Query where
  rows : List Row
  preds : List (Row → Bool)
  joinsRec : List (Bool × Item × Option Nat × Option Nat)
  nextAlias : Nat
  ord : Option (Row → Row → Bool)
  off : Nat
  lim : Option Nat

/-- Embedding of `session.query(model)`: all rows, no predicates, no joins. -/
def baseQuery (rows : List Row) : Query :=
  { rows := rows, preds := [], joinsRec := [], nextAlias := 0,
    ord := none, off := 0, lim := none }

/-- Embedding of `query.filter(p)`: conjoin one more `WHERE` predicate. -/
def Query.filter (q : Query) (p : Row → Bool) : Query :=
  { q with preds := q.preds ++ [p] }

/-- The rows satisfying every accumulated predicate (the query's result set
before ordering and pagination are taken into account). -/
def Query.results (q : Query) : List Row :=
  q.rows.filter (fun r => q.preds.all (fun p => p r))

/-- Insertion into a list sorted by `le`. -/
def insertOrd (le : Row → Row → Bool) (x : Row) : List Row → List Row
  | [] => [x]
  | y :: ys => if le x y then x :: y :: ys else y :: insertOrd le x ys

/-- Insertion sort by `le` (the model of `ORDER BY` execution). -/
def sortByOrd (le : Row → Row → Bool) : List Row → List Row
  | [] => []
  | x :: xs => insertOrd le x (sortByOrd le xs)

/-- Embedding of `query.all()`: filter, then order, then apply `OFFSET` and `LIMIT`. -/
def Query.all (q : Query) : List Row :=
  let rs := q.results
  let rs := match q.ord with
    | some le => sortByOrd le rs
    | none => rs
  let rs := rs.drop q.off
  match q.lim with
  | some n => rs.take n
  | none => rs

/-- Embedding of `count_query.scalar()`: `SELECT count(*)` with the accumulated `WHERE`
predicates applied (a count query never receives ordering or pagination). -/
def Query.scalar (q : Query) : Nat := q.results.length

/-- Embedding of `aliased(item.property.mapper.class_)`: an alias for relationship items, no alias
for `Table` items (`_apply_path_joins`, view.py lines 395-396). -/
def aliasFor (q : Query) (item : Item) : Option Nat × Query :=
  match item with
  | .table _ => (none, q)
  | .rel _ => (some q.nextAlias, { q with nextAlias := q.nextAlias + 1 })

/-- The loop body of `_apply_path_joins` (view.py lines 387-410): for each
path element, the key `(inner_join, item)` is looked up in the memo; on a
hit the stored alias is reused and no join is performed, on a miss an alias
is created (for non-`Table` items), the join is performed (recorded in
`joinsRec` together with the alias and the previous `last`), and the alias
is stored in the memo under the key. -/
def pathJoinsGo (inner : Bool) :
    List Item → Query → Memo → Option Nat → Query × Memo × Option Nat
  | [], q, joins, last => (q, joins, last)
  | item :: rest, q, joins, last =>
    match mlookup joins (MemoKey.flagged inner item) with
    | some al => pathJoinsGo inner rest q joins al
    | none =>
      let (al, q') := aliasFor q item
      let q'' := { q' with joinsRec := q'.joinsRec ++ [(inner, item, al, last)] }
      pathJoinsGo inner rest q'' (minsert joins (MemoKey.flagged inner item) al) al

/-- Embedding of `_apply_path_joins(query, joins, path, inner_join)` (view.py 374-410). -/
def applyPathJoins (q : Query) (joins : Memo) (path : List Item) (inner : Bool) :
    Query × Memo × Option Nat :=
  pathJoinsGo inner path q joins none

/-! ### Search application (`_apply_search`, view.py 800-838) -/

/-- One entry of `self._search_fields`: a column accessor and its join path
(`init_search`, view.py 522-542). -/
abbrev SearchField := (Row → Str) × List Item

/-- The inner loop of `_apply_search` over `self._search_fields`: join each
field's path into both the row query and the count query and accumulate one
`column.ilike(stmt)` clause per field into `filter_stmt` /
`count_filter_stmt`.  (`column = field if alias is None else
getattr(alias, field.key)` selects the aliased column; in this embedding
both resolve to the same row accessor.) -/
def searchFieldLoop (stmt : Str) :
    List SearchField →
    Query × Option Query × Memo × Memo × List (Row → Bool) × List (Row → Bool) →
    Query × Option Query × Memo × Memo × List (Row → Bool) × List (Row → Bool)
  | [], st => st
  | (field, path) :: rest, (q, cq, joins, cjoins, fs, cfs) =>
    let r1 := applyPathJoins q joins path false
    let q := r1.1
    let joins := r1.2.1
    let r2 := match cq with
      | some c =>
        let rc := applyPathJoins c cjoins path false
        (some rc.1, rc.2.1)
      | none => (none, cjoins)
    let cq := r2.1
    let cjoins := r2.2
    let fs := fs ++ [fun r => ilike (field r) stmt]
    let cfs := cfs ++ [fun r => ilike (field r) stmt]
    searchFieldLoop stmt rest (q, cq, joins, cjoins, fs, cfs)

/-- The outer loop of `_apply_search` over `search.split(' ')`: empty terms
are skipped (`if not term: continue`); for each remaining term the parsed
pattern is built and the disjunction `or_(*filter_stmt)` of the per-field
clauses is conjoined onto the row query and onto the count query. -/
def searchTermLoop (fields : List SearchField) :
    List Str → Query × Option Query × Memo × Memo → Query × Option Query × Memo × Memo
  | [], st => st
  | term :: rest, (q, cq, joins, cjoins) =>
    if term = [] then searchTermLoop fields rest (q, cq, joins, cjoins)
    else
      let stmt := parse_like_term term
      let st := searchFieldLoop stmt fields (q, cq, joins, cjoins, [], [])
      let q := st.1.filter (fun r => st.2.2.2.2.1.any (fun p => p r))
      let cq := st.2.1.map (fun c => c.filter (fun r => st.2.2.2.2.2.any (fun p => p r)))
      searchTermLoop fields rest (q, cq, st.2.2.1, st.2.2.2.1)

/-- Embedding of `_apply_search(query, count_query, joins, count_joins, search)`
(view.py 800-838): split the search string on `' '` and fold the term loop. -/
def applySearch (q : Query) (cq : Option Query) (joins cjoins : Memo)
    (fields : List SearchField) (search : Str) :
    Query × Option Query × Memo × Memo :=
  searchTermLoop fields (splitOnChar ' ' search) (q, cq, joins, cjoins)

/-- The predicate one search term contributes: the disjunction, over the
searchable columns, of `column.ilike(parse_like_term term)`. -/
def termPred (fields : List SearchField) (t : Str) : Row → Bool :=
  fun r => fields.any (fun fp => ilike (fp.1 r) (parse_like_term t))

/-- The predicates a whole search string contributes: one conjunct per
non-empty fragment of the split on `' '`. -/
def termPreds (fields : List SearchField) (terms : List Str) : List (Row → Bool) :=
  (terms.filter (fun t => !t.isEmpty)).map (termPred fields)

/-- The per-term matching relation the search actually implements, written
out by prefix: `^term` is a case-insensitive prefix match, `=term` a
case-insensitive exact match, anything else a case-insensitive substring
match. -/
def termMatches (t v : Str) : Bool :=
  match t with
  | [] => true
  | c :: rest =>
    if c = '^' then startsWithB (lowerStr rest) (lowerStr v)
    else if c = '=' then lowerStr rest == lowerStr v
    else containsSubB (lowerStr (c :: rest)) (lowerStr v)

/-! ### Filter application (`_apply_filters`, view.py 840-881) -/

/-- One configured filter (an entry of `self._filters`).  `sqla` mirrors
`isinstance(flt, BaseSQLAFilter)`; `path` is `self._filter_joins.get(flt.column, [])`.
Modelled from the spec: the `filters` module is not under `src/`; per the
spec each filter owns a `clean` method for its raw value and `flt.apply`
conjoins the filter's predicate (at the cleaned value) onto the query. -/
structure AFilter where
  sqla : Bool
  path : List Item
  clean : Str → Str
  pred : Str → Row → Bool

/-- A no-op filter used as the out-of-range default of list indexing (the
Python source would raise `IndexError` on an out-of-range filter index). -/
def dfltFilter : AFilter :=
  { sqla := false, path := [], clean := id, pred := fun _ _ => true }

/-- The loop of `_apply_filters` over the active `(idx, name, value)`
triples: resolve the filter by index, join its path into both queries
(for `BaseSQLAFilter` instances), clean the raw value, and apply the
filter to the row query and to the count query. -/
def filterLoop (allF : List AFilter) :
    List (Nat × Str × Str) → Query × Option Query × Memo × Memo →
    Query × Option Query × Memo × Memo
  | [], st => st
  | (idx, _name, value) :: rest, (q, cq, joins, cjoins) =>
    let flt := allF.getD idx dfltFilter
    let r1 := if flt.sqla then applyPathJoins q joins flt.path false
              else (q, joins, none)
    let q := r1.1
    let joins := r1.2.1
    let r2 := match cq with
      | some c =>
        if flt.sqla then
          let rc := applyPathJoins c cjoins flt.path false
          (some rc.1, rc.2.1)
        else (some c, cjoins)
      | none => (none, cjoins)
    let cq := r2.1
    let cjoins := r2.2
    let cv := flt.clean value
    let q := q.filter (flt.pred cv)
    let cq := cq.map (fun c => c.filter (flt.pred cv))
    filterLoop allF rest (q, cq, joins, cjoins)

/-- Embedding of `_apply_filters(query, count_query, joins, count_joins, filters)`
(view.py 840-881). -/
def applyFilters (q : Query) (cq : Option Query) (joins cjoins : Memo)
    (allF : List AFilter) (active : List (Nat × Str × Str)) :
    Query × Option Query × Memo × Memo :=
  filterLoop allF active (q, cq, joins, cjoins)

/-- The predicate one active filter triple contributes: the filter resolved
by index, applied at its cleaned value. -/
def filterPred (allF : List AFilter) (x : Nat × Str × Str) : Row → Bool :=
  (allF.getD x.1 dfltFilter).pred ((allF.getD x.1 dfltFilter).clean x.2.2)

/-! ### `get_list` (view.py 883-951) -/

/-- The configuration of a `ModelView` that `get_list` reads. -/
structure ViewCfg where
  rows : List Row
  page_size : Nat
  simple_list_pager : Bool
  searchSupported : Bool
  searchFields : List SearchField
  filters : List AFilter

/-- The first half of `get_list` (view.py 900-929): seed the join memo with
the eager-loaded tables (`joins[table] = None`, the eager tables standing
for `query._join_entities`), then apply search criteria and filters to the
row query and the count query. -/
def getListStage1 (cfg : ViewCfg) (eager : List Item)
    (search : Str) (active : List (Nat × Str × Str)) :
    Query × Option Query × Memo × Memo :=
  let joins : Memo := eager.map (fun t => (MemoKey.plain t, none))
  let cjoins : Memo := []
  let q := baseQuery cfg.rows
  let cq : Option Query := if cfg.simple_list_pager then none else some (baseQuery cfg.rows)
  let st :=
    if cfg.searchSupported && !search.isEmpty then
      applySearch q cq joins cjoins cfg.searchFields search
    else (q, cq, joins, cjoins)
  if !active.isEmpty && !cfg.filters.isEmpty then
    applyFilters st.1 st.2.1 st.2.2.1 st.2.2.2 cfg.filters active
  else st

/-- Embedding of `get_list` up to (but not including) query execution, i.e. the
`execute=False` behaviour (view.py 883-951): after search and filters, the
count is taken from the count query, sorting is applied (the resolution of
`sort_column` through `self._sortable_columns` is abstracted into an
optional ordering and join path), then `OFFSET` is applied only when `page`
is given and `LIMIT page_size` is always applied.  The `joinedload`
options of the auto-join step only affect eager loading, not the result
set, and are not modelled. -/
def getListQ (cfg : ViewCfg) (eager : List Item) (page : Option Nat)
    (sortSpec : Option ((Row → Row → Bool) × List Item))
    (search : Str) (active : List (Nat × Str × Str)) : Option Nat × Query :=
  let st := getListStage1 cfg eager search active
  let count := st.2.1.map Query.scalar
  let q := st.1
  let joins := st.2.2.1
  let qj := match sortSpec with
    | none => (q, joins)
    | some (le, spath) =>
      let r := applyPathJoins q joins spath false
      ({ r.1 with ord := some le }, r.2.1)
  let q2 := qj.1
  let q3 := match page with
    | some p => { q2 with off := p * cfg.page_size }
    | none => q2
  (count, { q3 with lim := some cfg.page_size })

/-- Embedding of `get_list` with `execute=True`: the count and the executed row query. -/
def getList (cfg : ViewCfg) (eager : List Item) (page : Option Nat)
    (sortSpec : Option ((Row → Row → Bool) × List Item))
    (search : Str) (active : List (Nat × Str × Str)) : Option Nat × List Row :=
  let r := getListQ cfg eager page sortSpec search active
  (r.1, r.2.all)

/-! ### Composite primary-key codec (`get_pk_value` / `get_one`) -/

/-- The escape character of the codec. -/
def escChar : Char := '.'

/-- The separator character of the codec. -/
def sepChar : Char := ','

/-- Modelled from the spec: `tools.escape` is not under `src/`.  The spec
requires the codec to be order-preserving and reversible, which forces the
separator (and the escape character itself) to be escaped inside encoded
values; every other character passes through unchanged. -/
def escape : Str → Str
  | [] => []
  | c :: cs =>
    if c = escChar || c = sepChar then escChar :: c :: escape cs
    else c :: escape cs

/-- Modelled from the spec: `tools.iterencode` is not under `src/`.  The
values are escaped and joined with the separator into a single token. -/
def iterencode : List Str → Str
  | [] => []
  | [v] => escape v
  | v :: vs => escape v ++ sepChar :: iterencode vs

/-- The accumulator loop of `iterdecode`: an escaped character is taken
verbatim, the escape character sets the flag, the separator ends the
current value, everything else is accumulated. -/
def iterdecodeAux : Str → Bool → Str → List Str
  | [], _, acc => [acc.reverse]
  | c :: cs, true, acc => iterdecodeAux cs false (c :: acc)
  | c :: cs, false, acc =>
    if c = escChar then iterdecodeAux cs true acc
    else if c = sepChar then acc.reverse :: iterdecodeAux cs false []
    else iterdecodeAux cs false (c :: acc)

/-- Modelled from the spec: `tools.iterdecode` is not under `src/`; the
inverse of `iterencode`. -/
def iterdecode (s : Str) : List Str := iterdecodeAux s false []

/-- The primary-key configuration returned by `scaffold_pk`: a single
attribute name or a tuple of attribute names. -/
inductive PKSpec
  | single (a : Nat)
  | multi (attrs : List Nat)

/-- Embedding of `get_pk_value(model)` (view.py 420-428): a tuple primary key is
`iterencode`d over its attribute values; a single key value is passed
through `tools.escape`. -/
def get_pk_value (pk : PKSpec) (m : Nat → Str) : Str :=
  match pk with
  | .multi attrs => iterencode (attrs.map m)
  | .single a => escape (m a)

/-- Embedding of `get_one(id)` (view.py 953-960): `session.query(model).get(iterdecode(id))`,
over a database modelled as an association list from primary-key value
tuples to instances. -/
def get_one (db : List (List Str × Nat)) (id : Str) : Option Nat :=
  (db.find? (fun e => e.1 == iterdecode id)).map (fun e => e.2)

/-! ### Mutation lifecycle (`create_model` / `update_model` / `delete_model`,
view.py 963-1048) -/

/-- The exceptions the handlers distinguish: `sqlalchemy.exc.IntegrityError`
versus every other exception. -/
inductive Exc
  | integrityError (msg : Str)
  | other (msg : Str)

/-- The user-facing flash messages the three handlers can emit. -/
inductive FlashMsg
  | integrity (detail : Str)
  | createFailed (detail : Str)
  | updateFailed (detail : Str)
  | deleteFailed (detail : Str)

/-- The request-side state the handlers touch: flash messages (with their
category), the failure log, the `transaction.doom()` flag of the
surrounding transaction, and whether the `begin_nested` savepoint was
rolled back. -/
structure WebState where
  flashes : List (FlashMsg × Str)
  logged : List Str
  doomed : Bool
  nestedRolledBack : Bool

/-- Embedding of `flash(message, category)`. -/
def flashMsg (st : WebState) (m : FlashMsg) (cat : Str) : WebState :=
  { st with flashes := (m, cat) :: st.flashes }

/-- Embedding of `handle_view_exception` (view.py 963-968): an `IntegrityError` is
flashed as an integrity-error message and reported handled.  Modelled from
the spec: the base-class `handle_view_exception` is not under `src/`; per
the spec all other exceptions are left to the caller to log and flash, so
the base handler reports them unhandled. -/
def handle_view_exception (exc : Exc) (st : WebState) : Bool × WebState :=
  match exc with
  | .integrityError msg => (true, flashMsg st (.integrity msg) ['e', 'r', 'r', 'o', 'r'])
  | .other _ => (false, st)

/-- The shared failure path of the three mutation handlers: the
`begin_nested` savepoint is rolled back (SQLAlchemy's context-manager
behaviour on an exception), `handle_view_exception` runs, an unhandled
exception is flashed with the handler-specific message and logged, and the
surrounding transaction is doomed. -/
def mutationFailure (exc : Exc) (mkMsg : Str → FlashMsg) (logLine : Str)
    (st : WebState) : WebState :=
  let st := { st with nestedRolledBack := true }
  let hr := handle_view_exception exc st
  let st :=
    if hr.1 then hr.2
    else
      let detail := match exc with
        | .integrityError m => m
        | .other m => m
      { flashMsg hr.2 (mkMsg detail) ['e', 'r', 'r', 'o', 'r'] with
          logged := logLine :: hr.2.logged }
  { st with doomed := true }

/-- Embedding of `create_model(form)` (view.py 971-996): the body (constructing the
instance, `populate_obj`, `session.add`, `_on_model_change`, `flush`) is
abstracted as a fallible outcome; on success the new model is returned, on
any exception the failure path runs and `False` is returned. -/
def create_model (outcome : Except Exc Nat) (st : WebState) : Option Nat × WebState :=
  match outcome with
  | .ok m => (some m, st)
  | .error ex =>
    (none, mutationFailure ex FlashMsg.createFailed
      ['c', 'r', 'e', 'a', 't', 'e'] st)

/-- Embedding of `update_model(form, model)` (view.py 998-1023): `True` on success,
`False` through the failure path on any exception. -/
def update_model (outcome : Except Exc Unit) (st : WebState) : Bool × WebState :=
  match outcome with
  | .ok _ => (true, st)
  | .error ex =>
    (false, mutationFailure ex FlashMsg.updateFailed
      ['u', 'p', 'd', 'a', 't', 'e'] st)

/-- Embedding of `delete_model(model)` (view.py 1025-1048): `True` on success, `False`
through the failure path on any exception. -/
def delete_model (outcome : Except Exc Unit) (st : WebState) : Bool × WebState :=
  match outcome with
  | .ok _ => (true, st)
  | .error ex =>
    (false, mutationFailure ex FlashMsg.deleteFailed
      ['d', 'e', 'l', 'e', 't', 'e'] st)

/-! ### `action_delete` (view.py 1058-1086) -/

/-- Removal of the first occurrence of a row (`session.delete(model)` on a
loaded instance). -/
def removeRow : List Row → Row → List Row
  | [], _ => []
  | r :: rs, m => if r = m then rs else r :: removeRow rs m

/-- Embedding of `action_delete(ids)` (view.py 1058-1086).  Modelled from the spec:
`get_query_for_ids` is not under `src/`; per its use it restricts the query
to the rows whose primary-key value is among `ids`.  With
`fast_mass_delete` a single bulk `DELETE` removes every matching row and
returns the row count; otherwise each matching object is loaded and
deleted through `delete_model` (whose success is abstracted by the
predicate `ok`), counting the deletions that returned `True`.  The result
is the remaining database and the count reported by the success flash. -/
def action_delete (fastMass : Bool) (pk : Row → Str) (ok : Row → Bool)
    (db : List Row) (ids : List Str) : List Row × Nat :=
  let matching := db.filter (fun r => ids.contains (pk r))
  if fastMass then
    (db.filter (fun r => !ids.contains (pk r)), matching.length)
  else
    matching.foldl
      (fun st m => if ok m then (removeRow st.1 m, st.2 + 1) else st)
      (db, 0)

/-! ### Claim-side definitions (from the claims' words, for comparison) -/

/-- Defined from claim C1's words: every (non-empty) term becomes a
case-insensitive substring-match predicate, OR across searchable columns,
AND across terms. -/
def claimC1Rows (fields : List SearchField) (search : Str) (rows : List Row) : List Row :=
  rows.filter (fun r =>
    ((splitOnChar ' ' search).filter (fun t => !t.isEmpty)).all (fun t =>
      fields.any (fun fp => containsSubB (lowerStr t) (lowerStr (fp.1 r)))))

/-- Python `str.split()`-style maximal whitespace-delimited words: split on
any whitespace character, dropping empty fragments (claim C8's reading). -/
def whitespaceWords (s : Str) : List Str :=
  (s.foldr
    (fun c ws =>
      match ws with
      | [] => if c.isWhitespace then [] else [[c]]
      | w :: rest => if c.isWhitespace then [] :: w :: rest else (c :: w) :: rest)
    []).filter (fun t => !t.isEmpty)

/-- Defined from claim C8's words: the search terms are the maximal
whitespace-delimited words of the search string, each converted as the
code converts terms. -/
def claimC8Rows (fields : List SearchField) (search : Str) (rows : List Row) : List Row :=
  rows.filter (fun r =>
    (whitespaceWords search).all (fun t =>
      fields.any (fun fp => ilike (fp.1 r) (parse_like_term t))))

/-! ## Lemmas about `LIKE` matching -/

theorem likeMatch_noPct_eq (p : Str) (hp : '%' ∉ p) :
    ∀ v, likeMatch p v = decide (p = v) := by
  induction p with
  | nil =>
    intro v
    cases v <;> simp [likeMatch, List.isEmpty]
  | cons c ps ih =>
    intro v
    have hc : c ≠ '%' := fun h => hp (h ▸ List.mem_cons_self c ps)
    have hps : '%' ∉ ps := fun h => hp (List.mem_cons_of_mem c h)
    cases v with
    | nil => simp [likeMatch, hc]
    | cons d vs =>
      simp only [likeMatch, if_neg hc, ih hps vs]
      by_cases hcd : c = d
      · subst hcd; simp
      · simp [hcd]

theorem likeMatch_noPct_starts (p : Str) (hp : '%' ∉ p) :
    ∀ v, likeMatch (p ++ ['%']) v = startsWithB p v := by
  induction p with
  | nil =>
    intro v
    simp only [List.nil_append, likeMatch, startsWithB, if_true, reduceIte]
    rw [List.any_eq_true]
    exact ⟨[], (List.mem_tails _ _).2 List.nil_suffix, by simp [List.isEmpty]⟩
  | cons c ps ih =>
    intro v
    have hc : c ≠ '%' := fun h => hp (h ▸ List.mem_cons_self c ps)
    have hps : '%' ∉ ps := fun h => hp (List.mem_cons_of_mem c h)
    cases v with
    | nil => simp [likeMatch, hc, startsWithB]
    | cons d vs => simp [likeMatch, hc, startsWithB, ih hps vs]

theorem likeMatch_noPct_contains (p : Str) (hp : '%' ∉ p) (v : Str) :
    likeMatch ('%' :: (p ++ ['%'])) v = containsSubB p v := by
  have : (fun s => likeMatch (p ++ ['%']) s) = (fun s => startsWithB p s) := by
    funext s; exact likeMatch_noPct_starts p hp s
  simp only [likeMatch, containsSubB, reduceIte, this]

theorem decide_eq_beq (x y : Str) : decide (x = y) = (x == y) := by
  by_cases h : x = y <;> simp [h]

/-- Key characterization: what one search term's `ILIKE` clause means,
spelled out by term prefix (`^` prefix match, `=` exact match, substring
match otherwise), for terms that contain no `%` wildcard up to case. -/
theorem ilike_parse_like_term (t v : Str) (ht : t ≠ []) (hw : '%' ∉ lowerStr t) :
    ilike v (parse_like_term t) = termMatches t v := by
  cases t with
  | nil => exact absurd rfl ht
  | cons c rest =>
    have hrest : '%' ∉ lowerStr rest := by
      intro h
      exact hw (List.mem_cons_of_mem _ h)
    by_cases hc : c = '^'
    · subst hc
      have hlow : lowerStr (rest ++ ['%']) = lowerStr rest ++ ['%'] := by
        simp [lowerStr]
      simp only [parse_like_term, termMatches, ilike, hlow, reduceIte,
        likeMatch_noPct_starts (lowerStr rest) hrest (lowerStr v)]
    · by_cases he : c = '='
      · subst he
        simp only [parse_like_term, if_neg hc, termMatches, ilike, reduceIte,
          likeMatch_noPct_eq (lowerStr rest) hrest (lowerStr v),
          decide_eq_beq]
      · have hw' : '%' ∉ lowerStr (c :: rest) := hw
        have hlow : lowerStr ('%' :: ((c :: rest) ++ ['%']))
            = '%' :: (lowerStr (c :: rest) ++ ['%']) := by
          simp [lowerStr]
        simp only [parse_like_term, if_neg hc, if_neg he, termMatches, ilike, hlow,
          likeMatch_noPct_contains (lowerStr (c :: rest)) hw' (lowerStr v)]

/-! ## Lemmas about `_apply_path_joins` -/

theorem mlookup_minsert_pres (m : Memo) (k k' : MemoKey) (v w : Option Nat)
    (h : mlookup m k = some w) : mlookup (minsert m k' v) k = some w := by
  induction m with
  | nil => simp [mlookup] at h
  | cons e rest ih =>
    simp only [minsert, List.cons_append, mlookup] at h ⊢
    by_cases he : e.1 = k
    · simpa [he] using h
    · rw [if_neg he] at h ⊢
      exact ih h

theorem mlookup_minsert_self (m : Memo) (k : MemoKey) (v : Option Nat)
    (h : mlookup m k = none) : mlookup (minsert m k v) k = some v := by
  induction m with
  | nil => simp [mlookup, minsert]
  | cons e rest ih =>
    simp only [minsert, List.cons_append, mlookup] at h ⊢
    by_cases he : e.1 = k
    · simp [he] at h
    · rw [if_neg he] at h ⊢
      exact ih h

theorem pathJoinsGo_cons_hit (inner : Bool) (item : Item) (rest : List Item)
    (q : Query) (m : Memo) (last al : Option Nat)
    (hm : mlookup m (MemoKey.flagged inner item) = some al) :
    pathJoinsGo inner (item :: rest) q m last = pathJoinsGo inner rest q m al := by
  simp [pathJoinsGo, hm]

theorem pathJoinsGo_cons_miss (inner : Bool) (item : Item) (rest : List Item)
    (q : Query) (m : Memo) (last : Option Nat)
    (hm : mlookup m (MemoKey.flagged inner item) = none) :
    pathJoinsGo inner (item :: rest) q m last =
      pathJoinsGo inner rest
        { (aliasFor q item).2 with
            joinsRec := (aliasFor q item).2.joinsRec ++ [(inner, item, (aliasFor q item).1, last)] }
        (minsert m (MemoKey.flagged inner item) (aliasFor q item).1)
        (aliasFor q item).1 := by
  simp [pathJoinsGo, hm]

theorem pathJoinsGo_memo_mono (inner : Bool) (path : List Item) :
    ∀ (q : Query) (m : Memo) (last : Option Nat) (k : MemoKey) (w : Option Nat),
    mlookup m k = some w → mlookup (pathJoinsGo inner path q m last).2.1 k = some w := by
  induction path with
  | nil => intro q m last k w h; exact h
  | cons item rest ih =>
    intro q m last k w h
    cases hm : mlookup m (MemoKey.flagged inner item) with
    | some al =>
      rw [pathJoinsGo_cons_hit inner item rest q m last al hm]
      exact ih q m al k w h
    | none =>
      rw [pathJoinsGo_cons_miss inner item rest q m last hm]
      exact ih _ _ _ k w (mlookup_minsert_pres m k _ _ w h)

/-- After a run of the join loop, the memo and the query are such that a
second run over the same path (with the same flag) is a no-op: every key is
found in the memo, no join is performed, and the stored aliases are reused
(the run even ends on the same `last` alias when the path is non-empty). -/
theorem pathJoinsGo_second (inner : Bool) (path : List Item) :
    ∀ (q : Query) (m : Memo) (last : Option Nat) (q1 : Query) (m1 : Memo)
      (l1 last0 : Option Nat),
    pathJoinsGo inner path q m last = (q1, m1, l1) →
    pathJoinsGo inner path q1 m1 last0 = (q1, m1, if path.isEmpty then last0 else l1) := by
  induction path with
  | nil =>
    intro q m last q1 m1 l1 last0 h
    simp only [pathJoinsGo, Prod.mk.injEq] at h
    obtain ⟨rfl, rfl, rfl⟩ := h
    simp [pathJoinsGo, List.isEmpty]
  | cons item rest ih =>
    intro q m last q1 m1 l1 last0 h
    cases hm : mlookup m (MemoKey.flagged inner item) with
    | some al =>
      rw [pathJoinsGo_cons_hit inner item rest q m last al hm] at h
      have hk : mlookup m1 (MemoKey.flagged inner item) = some al := by
        have hmono := pathJoinsGo_memo_mono inner rest q m al (MemoKey.flagged inner item) al hm
        rw [h] at hmono
        exact hmono
      rw [pathJoinsGo_cons_hit inner item rest q1 m1 last0 al hk]
      cases rest with
      | nil =>
        simp only [pathJoinsGo, Prod.mk.injEq] at h
        obtain ⟨rfl, rfl, rfl⟩ := h
        simp [pathJoinsGo, List.isEmpty]
      | cons r rs =>
        have h2 := ih q m al q1 m1 l1 al h
        simp only [List.isEmpty] at h2 ⊢
        exact h2
    | none =>
      rw [pathJoinsGo_cons_miss inner item rest q m last hm] at h
      have hk1 : mlookup (minsert m (MemoKey.flagged inner item) (aliasFor q item).1)
          (MemoKey.flagged inner item) = some (aliasFor q item).1 :=
        mlookup_minsert_self m _ _ hm
      have hk : mlookup m1 (MemoKey.flagged inner item) = some (aliasFor q item).1 := by
        have hmono := pathJoinsGo_memo_mono inner rest
          { (aliasFor q item).2 with
              joinsRec := (aliasFor q item).2.joinsRec ++ [(inner, item, (aliasFor q item).1, last)] }
          (minsert m (MemoKey.flagged inner item) (aliasFor q item).1)
          (aliasFor q item).1 (MemoKey.flagged inner item) (aliasFor q item).1 hk1
        rw [h] at hmono
        exact hmono
      rw [pathJoinsGo_cons_hit inner item rest q1 m1 last0 (aliasFor q item).1 hk]
      cases rest with
      | nil =>
        simp only [pathJoinsGo, Prod.mk.injEq] at h
        obtain ⟨rfl, rfl, rfl⟩ := h
        simp [pathJoinsGo, List.isEmpty]
      | cons r rs =>
        have h2 := ih _ _ (aliasFor q item).1 q1 m1 l1 (aliasFor q item).1 h
        simp only [List.isEmpty] at h2 ⊢
        exact h2

/-- C4: `_apply_path_joins` memoizes each resolved join under the key
`(inner_join flag, path element)`: an element whose key is already in the
memo is never joined again and its stored alias is reused (first conjunct),
and re-applying the same path to the resulting query with the resulting
memo and the same flag changes neither the query nor the memo (second
conjunct). -/
theorem claim_C4_join_memoization :
    (∀ (q : Query) (m : Memo) (inner : Bool) (i : Item) (a : Option Nat),
      mlookup m (MemoKey.flagged inner i) = some a →
      applyPathJoins q m [i] inner = (q, m, a)) ∧
    (∀ (q : Query) (m : Memo) (path : List Item) (inner : Bool)
       (q1 : Query) (m1 : Memo) (l1 : Option Nat),
      applyPathJoins q m path inner = (q1, m1, l1) →
      applyPathJoins q1 m1 path inner = (q1, m1, if path.isEmpty then none else l1)) := by
  constructor
  · intro q m inner i a h
    rw [applyPathJoins, pathJoinsGo_cons_hit inner i [] q m none a h]
    rfl
  · intro q m path inner q1 m1 l1 h
    exact pathJoinsGo_second inner path q m none q1 m1 l1 none h

/-- Witness for C4 at concrete inputs: a memoized single-element path is a
no-op that returns the stored alias, and a second application of a freshly
joined path changes nothing. -/
theorem claim_C4_join_memoization_witness :
    applyPathJoins (baseQuery []) [(MemoKey.flagged true (Item.rel 0), some 5)]
        [Item.rel 0] true
      = (baseQuery [], [(MemoKey.flagged true (Item.rel 0), some 5)], some 5) ∧
    applyPathJoins
        { baseQuery [] with joinsRec := [(false, Item.rel 1, some 0, none)], nextAlias := 1 }
        [(MemoKey.flagged false (Item.rel 1), some 0)] [Item.rel 1] false
      = ({ baseQuery [] with joinsRec := [(false, Item.rel 1, some 0, none)], nextAlias := 1 },
         [(MemoKey.flagged false (Item.rel 1), some 0)], some 0) :=
  ⟨claim_C4_join_memoization.1 (baseQuery []) _ true (Item.rel 0) (some 5) (by decide),
   by
    have h := claim_C4_join_memoization.2 (baseQuery []) [] [Item.rel 1] false
      { baseQuery [] with joinsRec := [(false, Item.rel 1, some 0, none)], nextAlias := 1 }
      [(MemoKey.flagged false (Item.rel 1), some 0)] (some 0) rfl
    simpa using h⟩

/-! ## Preservation of the query's row source, predicates and pagination
state by the join loop -/

theorem pathJoinsGo_query_fields (inner : Bool) (path : List Item) :
    ∀ (q : Query) (m : Memo) (last : Option Nat),
    (pathJoinsGo inner path q m last).1.rows = q.rows ∧
    (pathJoinsGo inner path q m last).1.preds = q.preds ∧
    (pathJoinsGo inner path q m last).1.ord = q.ord ∧
    (pathJoinsGo inner path q m last).1.off = q.off ∧
    (pathJoinsGo inner path q m last).1.lim = q.lim := by
  induction path with
  | nil => intro q m last; exact ⟨rfl, rfl, rfl, rfl, rfl⟩
  | cons item rest ih =>
    intro q m last
    cases hm : mlookup m (MemoKey.flagged inner item) with
    | some al =>
      rw [pathJoinsGo_cons_hit inner item rest q m last al hm]
      exact ih q m al
    | none =>
      rw [pathJoinsGo_cons_miss inner item rest q m last hm]
      have h := ih
        { (aliasFor q item).2 with
            joinsRec := (aliasFor q item).2.joinsRec ++ [(inner, item, (aliasFor q item).1, last)] }
        (minsert m (MemoKey.flagged inner item) (aliasFor q item).1)
        (aliasFor q item).1
      cases item with
      | table t => exact h
      | rel r => exact h

theorem applyPathJoins_query_fields (q : Query) (j : Memo) (path : List Item) (inner : Bool) :
    (applyPathJoins q j path inner).1.rows = q.rows ∧
    (applyPathJoins q j path inner).1.preds = q.preds ∧
    (applyPathJoins q j path inner).1.ord = q.ord ∧
    (applyPathJoins q j path inner).1.off = q.off ∧
    (applyPathJoins q j path inner).1.lim = q.lim :=
  pathJoinsGo_query_fields inner path q j none

/-! ## Characterization of `_apply_search` -/

theorem searchFieldLoop_spec (stmt : Str) (fields : List SearchField) :
    ∀ (q : Query) (cq : Option Query) (j cj : Memo) (fs cfs : List (Row → Bool)),
    (searchFieldLoop stmt fields (q, cq, j, cj, fs, cfs)).1.rows = q.rows ∧
    (searchFieldLoop stmt fields (q, cq, j, cj, fs, cfs)).1.preds = q.preds ∧
    (searchFieldLoop stmt fields (q, cq, j, cj, fs, cfs)).1.ord = q.ord ∧
    (searchFieldLoop stmt fields (q, cq, j, cj, fs, cfs)).1.off = q.off ∧
    (searchFieldLoop stmt fields (q, cq, j, cj, fs, cfs)).1.lim = q.lim ∧
    (searchFieldLoop stmt fields (q, cq, j, cj, fs, cfs)).2.2.2.2.1
      = fs ++ fields.map (fun fp => fun r => ilike (fp.1 r) stmt) ∧
    (searchFieldLoop stmt fields (q, cq, j, cj, fs, cfs)).2.2.2.2.2
      = cfs ++ fields.map (fun fp => fun r => ilike (fp.1 r) stmt) ∧
    (cq = none → (searchFieldLoop stmt fields (q, cq, j, cj, fs, cfs)).2.1 = none) ∧
    (∀ c, cq = some c → ∃ c',
      (searchFieldLoop stmt fields (q, cq, j, cj, fs, cfs)).2.1 = some c' ∧
      c'.rows = c.rows ∧ c'.preds = c.preds) := by
  induction fields with
  | nil =>
    intro q cq j cj fs cfs
    refine ⟨rfl, rfl, rfl, rfl, rfl, by simp [searchFieldLoop], by simp [searchFieldLoop], ?_, ?_⟩
    · intro h; simpa [searchFieldLoop] using h
    · intro c h; exact ⟨c, by simpa [searchFieldLoop] using h, rfl, rfl⟩
  | cons f rest ih =>
    intro q cq j cj fs cfs
    obtain ⟨field, path⟩ := f
    cases cq with
    | none =>
      simp only [searchFieldLoop]
      have hq := applyPathJoins_query_fields q j path false
      have h := ih (applyPathJoins q j path false).1 none
        (applyPathJoins q j path false).2.1 cj
        (fs ++ [fun r => ilike (field r) stmt]) (cfs ++ [fun r => ilike (field r) stmt])
      refine ⟨?_, ?_, ?_, ?_, ?_, ?_, ?_, ?_, ?_⟩
      · rw [h.1, hq.1]
      · rw [h.2.1, hq.2.1]
      · rw [h.2.2.1, hq.2.2.1]
      · rw [h.2.2.2.1, hq.2.2.2.1]
      · rw [h.2.2.2.2.1, hq.2.2.2.2]
      · rw [h.2.2.2.2.2.1]; simp
      · rw [h.2.2.2.2.2.2.1]; simp
      · intro _; exact h.2.2.2.2.2.2.2.1 rfl
      · intro c hc; exact absurd hc (by simp)
    | some c =>
      simp only [searchFieldLoop]
      have hq := applyPathJoins_query_fields q j path false
      have hcq := applyPathJoins_query_fields c cj path false
      have h := ih (applyPathJoins q j path false).1 (some (applyPathJoins c cj path false).1)
        (applyPathJoins q j path false).2.1 (applyPathJoins c cj path false).2.1
        (fs ++ [fun r => ilike (field r) stmt]) (cfs ++ [fun r => ilike (field r) stmt])
      refine ⟨?_, ?_, ?_, ?_, ?_, ?_, ?_, ?_, ?_⟩
      · rw [h.1, hq.1]
      · rw [h.2.1, hq.2.1]
      · rw [h.2.2.1, hq.2.2.1]
      · rw [h.2.2.2.1, hq.2.2.2.1]
      · rw [h.2.2.2.2.1, hq.2.2.2.2]
      · rw [h.2.2.2.2.2.1]; simp
      · rw [h.2.2.2.2.2.2.1]; simp
      · intro hc; exact absurd hc (by simp)
      · intro c0 hc0
        obtain rfl : c = c0 := by injection hc0
        obtain ⟨c', hc', hr, hp⟩ := h.2.2.2.2.2.2.2.2 (applyPathJoins c cj path false).1 rfl
        exact ⟨c', hc', by rw [hr, hcq.1], by rw [hp, hcq.2.1]⟩

theorem termPreds_nil (fields : List SearchField) : termPreds fields [] = [] := rfl

theorem termPreds_cons_empty (fields : List SearchField) (rest : List Str) :
    termPreds fields ([] :: rest) = termPreds fields rest := by
  simp [termPreds, List.isEmpty]

theorem termPreds_cons_ne (fields : List SearchField) (t : Str) (rest : List Str)
    (ht : t ≠ []) :
    termPreds fields (t :: rest) = termPred fields t :: termPreds fields rest := by
  cases t with
  | nil => exact absurd rfl ht
  | cons c cs => simp [termPreds, List.isEmpty]

theorem anyMapTermPred (fields : List SearchField) (t : Str) :
    (fun r => (fields.map (fun fp => fun r' => ilike (fp.1 r') (parse_like_term t))).any
        (fun p => p r))
      = termPred fields t := by
  funext r
  show (fields.map (fun fp => fun r' => ilike (fp.1 r') (parse_like_term t))).any
        (fun p => p r)
      = fields.any (fun fp => ilike (fp.1 r) (parse_like_term t))
  induction fields with
  | nil => rfl
  | cons f fs ih => simp only [List.map_cons, List.any_cons, ih]

theorem searchTermLoop_spec (fields : List SearchField) :
    ∀ (terms : List Str) (q : Query) (cq : Option Query) (j cj : Memo),
    (searchTermLoop fields terms (q, cq, j, cj)).1.rows = q.rows ∧
    (searchTermLoop fields terms (q, cq, j, cj)).1.preds = q.preds ++ termPreds fields terms ∧
    (searchTermLoop fields terms (q, cq, j, cj)).1.ord = q.ord ∧
    (searchTermLoop fields terms (q, cq, j, cj)).1.off = q.off ∧
    (searchTermLoop fields terms (q, cq, j, cj)).1.lim = q.lim ∧
    (cq = none → (searchTermLoop fields terms (q, cq, j, cj)).2.1 = none) ∧
    (∀ c, cq = some c → ∃ c',
      (searchTermLoop fields terms (q, cq, j, cj)).2.1 = some c' ∧
      c'.rows = c.rows ∧ c'.preds = c.preds ++ termPreds fields terms) := by
  intro terms
  induction terms with
  | nil =>
    intro q cq j cj
    refine ⟨rfl, by simp [searchTermLoop, termPreds_nil], rfl, rfl, rfl, fun h => h, ?_⟩
    intro c hc
    exact ⟨c, hc, rfl, by simp [termPreds_nil]⟩
  | cons term rest ih =>
    intro q cq j cj
    by_cases hterm : term = []
    · subst hterm
      simp only [searchTermLoop, if_pos rfl]
      have h := ih q cq j cj
      rw [termPreds_cons_empty]
      exact h
    · simp only [searchTermLoop, if_neg hterm]
      obtain ⟨h1, h2, h3, h4, h5, h6, h7, h8, h9⟩ :=
        searchFieldLoop_spec (parse_like_term term) fields q cq j cj [] []
      rw [termPreds_cons_ne fields term rest hterm]
      rw [h6, h7, List.nil_append, anyMapTermPred]
      cases cq with
      | none =>
        rw [h8 rfl]
        simp only [Option.map]
        have hrec := ih
          ((searchFieldLoop (parse_like_term term) fields (q, none, j, cj, [], [])).1.filter
            (termPred fields term))
          none
          (searchFieldLoop (parse_like_term term) fields (q, none, j, cj, [], [])).2.2.1
          (searchFieldLoop (parse_like_term term) fields (q, none, j, cj, [], [])).2.2.2.1
        refine ⟨?_, ?_, ?_, ?_, ?_, fun _ => hrec.2.2.2.2.2.1 rfl, ?_⟩
        · rw [hrec.1, Query.filter, h1]
        · rw [hrec.2.1, Query.filter, h2, List.append_assoc]; rfl
        · rw [hrec.2.2.1, Query.filter, h3]
        · rw [hrec.2.2.2.1, Query.filter, h4]
        · rw [hrec.2.2.2.2.1, Query.filter, h5]
        · intro c hc; exact absurd hc (by simp)
      | some c =>
        obtain ⟨c', hc', hcr, hcp⟩ := h9 c rfl
        rw [hc']
        simp only [Option.map]
        have hrec := ih
          ((searchFieldLoop (parse_like_term term) fields (q, some c, j, cj, [], [])).1.filter
            (termPred fields term))
          (some (c'.filter (termPred fields term)))
          (searchFieldLoop (parse_like_term term) fields (q, some c, j, cj, [], [])).2.2.1
          (searchFieldLoop (parse_like_term term) fields (q, some c, j, cj, [], [])).2.2.2.1
        refine ⟨?_, ?_, ?_, ?_, ?_, ?_, ?_⟩
        · rw [hrec.1, Query.filter, h1]
        · rw [hrec.2.1, Query.filter, h2, List.append_assoc]; rfl
        · rw [hrec.2.2.1, Query.filter, h3]
        · rw [hrec.2.2.2.1, Query.filter, h4]
        · rw [hrec.2.2.2.2.1, Query.filter, h5]
        · intro hnone; exact absurd hnone (by simp)
        · intro c0 hc0
          obtain rfl : c = c0 := by injection hc0
          obtain ⟨c2, hc2, hc2r, hc2p⟩ :=
            hrec.2.2.2.2.2.2 (c'.filter (termPred fields term)) rfl
          refine ⟨c2, hc2, ?_, ?_⟩
          · rw [hc2r, Query.filter]; exact hcr
          · rw [hc2p, Query.filter, hcp, List.append_assoc]; rfl

theorem notEmpty_iff_ne (t : Str) : (!t.isEmpty) = true ↔ t ≠ [] := by
  cases t <;> simp [List.isEmpty]

/-- C8 (amended): the conjuncts `_apply_search` adds to the query are
exactly one predicate per non-empty fragment of splitting the search string
on the single space character `' '` (empty fragments contribute no
predicate); other whitespace such as tabs or newlines does not delimit
terms. -/
theorem claim_C8_space_split_terms (q : Query) (cq : Option Query) (j cj : Memo)
    (fields : List SearchField) (search : Str) :
    (applySearch q cq j cj fields search).1.preds
      = q.preds ++ termPreds fields (splitOnChar ' ' search) :=
  (searchTermLoop_spec fields (splitOnChar ' ' search) q cq j cj).2.1

/-- Counterexample to C8 as stated: for the search string `"a\tb"` (two
words separated by a tab) over one searchable column and the single row
`["ab"]`, the code treats the whole string as one term (`split(' ')` does
not split on tabs) and returns no row, while splitting on general
whitespace would yield the terms `a` and `b` and return the row. -/
theorem claim_C8_counterexample :
    (applySearch (baseQuery [["ab".toList]]) none [] []
        [(fun r => r.getD 0 [], [])] "a\tb".toList).1.results
      ≠ claimC8Rows [(fun r => r.getD 0 [], [])] "a\tb".toList [["ab".toList]] := by
  decide

theorem termPred_eq_termMatches (fields : List SearchField) (t : Str) (r : Row)
    (ht : t ≠ []) (hwt : '%' ∉ lowerStr t) :
    termPred fields t r = fields.any (fun fp => termMatches t (fp.1 r)) := by
  show fields.any (fun fp => ilike (fp.1 r) (parse_like_term t)) = _
  congr 1
  funext fp
  exact ilike_parse_like_term t (fp.1 r) ht hwt

/-- C1 (amended): a row is in the searched query's result set iff it was in
the base query's result set and, for every non-empty term of the split on
`' '`, at least one searchable column matches the term case-insensitively —
where a term prefixed `^` is a prefix match, a term prefixed `=` an exact
match, and any other term a substring match.  (The hypothesis excludes `%`
wildcards inside terms, which SQL `LIKE` would interpret specially.) -/
theorem claim_C1_search_semantics (fields : List SearchField) (search : Str)
    (q : Query) (cq : Option Query) (j cj : Memo) (r : Row)
    (hw : ∀ t ∈ splitOnChar ' ' search, '%' ∉ lowerStr t) :
    r ∈ (applySearch q cq j cj fields search).1.results ↔
      r ∈ q.results ∧
      ∀ t ∈ splitOnChar ' ' search, t ≠ [] →
        ∃ fp ∈ fields, termMatches t (fp.1 r) = true := by
  have hs := searchTermLoop_spec fields (splitOnChar ' ' search) q cq j cj
  have hrows : (applySearch q cq j cj fields search).1.rows = q.rows := hs.1
  have hpreds : (applySearch q cq j cj fields search).1.preds
      = q.preds ++ termPreds fields (splitOnChar ' ' search) := hs.2.1
  simp only [Query.results, List.mem_filter, hrows, hpreds, List.all_append,
    Bool.and_eq_true, and_assoc]
  refine and_congr_right fun _ => and_congr_right fun _ => ?_
  constructor
  · intro hall t htmem htne
    have hmem : t ∈ (splitOnChar ' ' search).filter (fun t => !t.isEmpty) :=
      List.mem_filter.2 ⟨htmem, (notEmpty_iff_ne t).2 htne⟩
    have hp := (List.all_eq_true.1 hall) (termPred fields t)
      (List.mem_map_of_mem (termPred fields) hmem)
    rw [termPred_eq_termMatches fields t r htne (hw t htmem)] at hp
    exact List.any_eq_true.1 hp
  · intro hforall
    rw [termPreds, List.all_eq_true]
    intro p hp
    obtain ⟨t, htmem, rfl⟩ := List.mem_map.1 hp
    obtain ⟨htin, htne'⟩ := List.mem_filter.1 htmem
    have htne : t ≠ [] := (notEmpty_iff_ne t).1 htne'
    rw [termPred_eq_termMatches fields t r htne (hw t htin)]
    exact List.any_eq_true.2 (hforall t htin htne)

/-- Witness for C1's amended theorem at a concrete input: search `"^ab"`
over one searchable column, row `["abc"]`. -/
theorem claim_C1_search_semantics_witness :
    ["abc".toList] ∈ (applySearch (baseQuery [["abc".toList]]) none [] []
        [(fun r => r.getD 0 [], [])] "^ab".toList).1.results ↔
      ["abc".toList] ∈ (baseQuery [["abc".toList]]).results ∧
      ∀ t ∈ splitOnChar ' ' "^ab".toList, t ≠ [] →
        ∃ fp ∈ [((fun r => r.getD 0 [], []) : SearchField)],
          termMatches t (fp.1 ["abc".toList]) = true :=
  claim_C1_search_semantics [(fun r => r.getD 0 [], [])] "^ab".toList
    (baseQuery [["abc".toList]]) none [] [] ["abc".toList] (by decide)

/-- Counterexample to C1 as stated: for the search string `"=abc"` over one
searchable column and the single row `["abc"]`, the code performs an exact
(case-insensitive) match and returns the row, while a substring
interpretation of the term `=abc` would return nothing. -/
theorem claim_C1_counterexample :
    (applySearch (baseQuery [["abc".toList]]) none [] []
        [(fun r => r.getD 0 [], [])] "=abc".toList).1.results
      ≠ claimC1Rows [(fun r => r.getD 0 [], [])] "=abc".toList [["abc".toList]] := by
  decide

/-! ## Characterization of `_apply_filters` -/

/-- The predicates a list of active filter triples contributes. -/
def filterPreds (allF : List AFilter) (active : List (Nat × Str × Str)) :
    List (Row → Bool) :=
  active.map (filterPred allF)

theorem filterLoop_spec (allF : List AFilter) :
    ∀ (active : List (Nat × Str × Str)) (q : Query) (cq : Option Query) (j cj : Memo),
    (filterLoop allF active (q, cq, j, cj)).1.rows = q.rows ∧
    (filterLoop allF active (q, cq, j, cj)).1.preds = q.preds ++ filterPreds allF active ∧
    (filterLoop allF active (q, cq, j, cj)).1.ord = q.ord ∧
    (filterLoop allF active (q, cq, j, cj)).1.off = q.off ∧
    (filterLoop allF active (q, cq, j, cj)).1.lim = q.lim ∧
    (cq = none → (filterLoop allF active (q, cq, j, cj)).2.1 = none) ∧
    (∀ c, cq = some c → ∃ c',
      (filterLoop allF active (q, cq, j, cj)).2.1 = some c' ∧
      c'.rows = c.rows ∧ c'.preds = c.preds ++ filterPreds allF active) := by
  intro active
  induction active with
  | nil =>
    intro q cq j cj
    refine ⟨rfl, by simp [filterLoop, filterPreds], rfl, rfl, rfl, fun h => h, ?_⟩
    intro c hc
    exact ⟨c, hc, rfl, by simp [filterPreds]⟩
  | cons x rest ih =>
    obtain ⟨idx, name, value⟩ := x
    intro q cq j cj
    simp only [filterLoop]
    have hfp : filterPreds allF ((idx, name, value) :: rest)
        = filterPred allF (idx, name, value) :: filterPreds allF rest := rfl
    by_cases hsq : (allF.getD idx dfltFilter).sqla
    · simp only [hsq, if_pos rfl, reduceIte]
      have hq := applyPathJoins_query_fields q j (allF.getD idx dfltFilter).path false
      cases cq with
      | none =>
        simp only [Option.map]
        have hrec := ih
          ((applyPathJoins q j (allF.getD idx dfltFilter).path false).1.filter
            ((allF.getD idx dfltFilter).pred ((allF.getD idx dfltFilter).clean value)))
          none
          (applyPathJoins q j (allF.getD idx dfltFilter).path false).2.1
          cj
        refine ⟨?_, ?_, ?_, ?_, ?_, fun _ => hrec.2.2.2.2.2.1 rfl, ?_⟩
        · rw [hrec.1, Query.filter, hq.1]
        · rw [hrec.2.1, Query.filter, hq.2.1, List.append_assoc, hfp]; rfl
        · rw [hrec.2.2.1, Query.filter, hq.2.2.1]
        · rw [hrec.2.2.2.1, Query.filter, hq.2.2.2.1]
        · rw [hrec.2.2.2.2.1, Query.filter, hq.2.2.2.2]
        · intro c hc; exact absurd hc (by simp)
      | some c =>
        simp only [Option.map]
        have hcq := applyPathJoins_query_fields c cj (allF.getD idx dfltFilter).path false
        have hrec := ih
          ((applyPathJoins q j (allF.getD idx dfltFilter).path false).1.filter
            ((allF.getD idx dfltFilter).pred ((allF.getD idx dfltFilter).clean value)))
          (some ((applyPathJoins c cj (allF.getD idx dfltFilter).path false).1.filter
            ((allF.getD idx dfltFilter).pred ((allF.getD idx dfltFilter).clean value))))
          (applyPathJoins q j (allF.getD idx dfltFilter).path false).2.1
          (applyPathJoins c cj (allF.getD idx dfltFilter).path false).2.1
        refine ⟨?_, ?_, ?_, ?_, ?_, ?_, ?_⟩
        · rw [hrec.1, Query.filter, hq.1]
        · rw [hrec.2.1, Query.filter, hq.2.1, List.append_assoc, hfp]; rfl
        · rw [hrec.2.2.1, Query.filter, hq.2.2.1]
        · rw [hrec.2.2.2.1, Query.filter, hq.2.2.2.1]
        · rw [hrec.2.2.2.2.1, Query.filter, hq.2.2.2.2]
        · intro hnone; exact absurd hnone (by simp)
        · intro c0 hc0
          obtain rfl : c = c0 := by injection hc0
          obtain ⟨c2, hc2, hc2r, hc2p⟩ := hrec.2.2.2.2.2.2 _ rfl
          refine ⟨c2, hc2, ?_, ?_⟩
          · rw [hc2r, Query.filter, hcq.1]
          · rw [hc2p, Query.filter, hcq.2.1, List.append_assoc, hfp]; rfl
    · simp only [hsq, Bool.false_eq_true, reduceIte]
      cases cq with
      | none =>
        simp only [Option.map]
        have hrec := ih
          (q.filter ((allF.getD idx dfltFilter).pred ((allF.getD idx dfltFilter).clean value)))
          none j cj
        refine ⟨?_, ?_, ?_, ?_, ?_, fun _ => hrec.2.2.2.2.2.1 rfl, ?_⟩
        · rw [hrec.1, Query.filter]
        · rw [hrec.2.1, Query.filter, List.append_assoc, hfp]; rfl
        · rw [hrec.2.2.1, Query.filter]
        · rw [hrec.2.2.2.1, Query.filter]
        · rw [hrec.2.2.2.2.1, Query.filter]
        · intro c hc; exact absurd hc (by simp)
      | some c =>
        simp only [Option.map]
        have hrec := ih
          (q.filter ((allF.getD idx dfltFilter).pred ((allF.getD idx dfltFilter).clean value)))
          (some (c.filter ((allF.getD idx dfltFilter).pred
            ((allF.getD idx dfltFilter).clean value))))
          j cj
        refine ⟨?_, ?_, ?_, ?_, ?_, ?_, ?_⟩
        · rw [hrec.1, Query.filter]
        · rw [hrec.2.1, Query.filter, List.append_assoc, hfp]; rfl
        · rw [hrec.2.2.1, Query.filter]
        · rw [hrec.2.2.2.1, Query.filter]
        · rw [hrec.2.2.2.2.1, Query.filter]
        · intro hnone; exact absurd hnone (by simp)
        · intro c0 hc0
          obtain rfl : c = c0 := by injection hc0
          obtain ⟨c2, hc2, hc2r, hc2p⟩ := hrec.2.2.2.2.2.2 _ rfl
          refine ⟨c2, hc2, ?_, ?_⟩
          · rw [hc2r, Query.filter]
          · rw [hc2p, Query.filter, List.append_assoc, hfp]; rfl

/-- C6: `_apply_filters` cleans each active filter's raw value with that
filter's `clean` method and applies the resulting predicates conjunctively
and independently: a row is in the filtered query's result set iff it was
in the base query's result set and satisfies every active filter's cleaned
predicate. -/
theorem claim_C6_filter_conjunction (allF : List AFilter)
    (active : List (Nat × Str × Str)) (q : Query) (cq : Option Query)
    (j cj : Memo) (r : Row) :
    r ∈ (applyFilters q cq j cj allF active).1.results ↔
      r ∈ q.results ∧ ∀ x ∈ active, filterPred allF x r = true := by
  have hs := filterLoop_spec allF active q cq j cj
  simp only [applyFilters] at hs ⊢
  simp only [Query.results, List.mem_filter, hs.1, hs.2.1, List.all_append,
    Bool.and_eq_true, and_assoc]
  refine and_congr_right fun _ => and_congr_right fun _ => ?_
  rw [filterPreds, List.all_eq_true]
  constructor
  · intro hall x hx
    exact hall (filterPred allF x) (List.mem_map_of_mem (filterPred allF) hx)
  · intro hforall p hp
    obtain ⟨x, hx, rfl⟩ := List.mem_map.1 hp
    exact hforall x hx

/-! ## Characterization of `get_list` -/

theorem condSearch_spec (b : Bool) (q : Query) (cq : Option Query) (j cj : Memo)
    (fields : List SearchField) (search : Str) :
    (if b then applySearch q cq j cj fields search else (q, cq, j, cj)).1.rows = q.rows ∧
    (if b then applySearch q cq j cj fields search else (q, cq, j, cj)).1.ord = q.ord ∧
    (if b then applySearch q cq j cj fields search else (q, cq, j, cj)).1.off = q.off ∧
    (if b then applySearch q cq j cj fields search else (q, cq, j, cj)).1.lim = q.lim ∧
    (cq = none →
      (if b then applySearch q cq j cj fields search else (q, cq, j, cj)).2.1 = none) ∧
    (∀ c, cq = some c → c.rows = q.rows → c.preds = q.preds → ∃ c',
      (if b then applySearch q cq j cj fields search else (q, cq, j, cj)).2.1 = some c' ∧
      c'.rows = (if b then applySearch q cq j cj fields search else (q, cq, j, cj)).1.rows ∧
      c'.preds = (if b then applySearch q cq j cj fields search else (q, cq, j, cj)).1.preds) := by
  cases b with
  | false =>
    simp only [Bool.false_eq_true, reduceIte]
    refine ⟨?_, ?_, ?_, ?_, fun h => h, fun c hc h1 h2 => ⟨c, hc, h1, h2⟩⟩ <;> trivial
  | true =>
    simp only [reduceIte, applySearch]
    have hs := searchTermLoop_spec fields (splitOnChar ' ' search) q cq j cj
    refine ⟨hs.1, hs.2.2.1, hs.2.2.2.1, hs.2.2.2.2.1, hs.2.2.2.2.2.1, ?_⟩
    intro c hc h1 h2
    obtain ⟨c', hc', hr, hp⟩ := hs.2.2.2.2.2.2 c hc
    refine ⟨c', hc', ?_, ?_⟩
    · rw [hr, h1, hs.1]
    · rw [hp, h2, hs.2.1]

theorem condFilters_spec (b : Bool) (q : Query) (cq : Option Query) (j cj : Memo)
    (allF : List AFilter) (active : List (Nat × Str × Str)) :
    (if b then applyFilters q cq j cj allF active else (q, cq, j, cj)).1.rows = q.rows ∧
    (if b then applyFilters q cq j cj allF active else (q, cq, j, cj)).1.ord = q.ord ∧
    (if b then applyFilters q cq j cj allF active else (q, cq, j, cj)).1.off = q.off ∧
    (if b then applyFilters q cq j cj allF active else (q, cq, j, cj)).1.lim = q.lim ∧
    (cq = none →
      (if b then applyFilters q cq j cj allF active else (q, cq, j, cj)).2.1 = none) ∧
    (∀ c, cq = some c → c.rows = q.rows → c.preds = q.preds → ∃ c',
      (if b then applyFilters q cq j cj allF active else (q, cq, j, cj)).2.1 = some c' ∧
      c'.rows = (if b then applyFilters q cq j cj allF active else (q, cq, j, cj)).1.rows ∧
      c'.preds = (if b then applyFilters q cq j cj allF active else (q, cq, j, cj)).1.preds) := by
  cases b with
  | false =>
    simp only [Bool.false_eq_true, reduceIte]
    refine ⟨?_, ?_, ?_, ?_, fun h => h, fun c hc h1 h2 => ⟨c, hc, h1, h2⟩⟩ <;> trivial
  | true =>
    simp only [reduceIte, applyFilters]
    have hs := filterLoop_spec allF active q cq j cj
    refine ⟨hs.1, hs.2.2.1, hs.2.2.2.1, hs.2.2.2.2.1, hs.2.2.2.2.2.1, ?_⟩
    intro c hc h1 h2
    obtain ⟨c', hc', hr, hp⟩ := hs.2.2.2.2.2.2 c hc
    refine ⟨c', hc', ?_, ?_⟩
    · rw [hr, h1, hs.1]
    · rw [hp, h2, hs.2.1]

theorem getListStage1_spec (cfg : ViewCfg) (eager : List Item)
    (search : Str) (active : List (Nat × Str × Str)) :
    (getListStage1 cfg eager search active).1.rows = cfg.rows ∧
    (getListStage1 cfg eager search active).1.ord = none ∧
    (getListStage1 cfg eager search active).1.off = 0 ∧
    (getListStage1 cfg eager search active).1.lim = none ∧
    (cfg.simple_list_pager = true → (getListStage1 cfg eager search active).2.1 = none) ∧
    (cfg.simple_list_pager = false → ∃ c',
      (getListStage1 cfg eager search active).2.1 = some c' ∧
      c'.rows = (getListStage1 cfg eager search active).1.rows ∧
      c'.preds = (getListStage1 cfg eager search active).1.preds) := by
  simp only [getListStage1]
  have hs := condSearch_spec (cfg.searchSupported && !search.isEmpty)
    (baseQuery cfg.rows)
    (if cfg.simple_list_pager then none else some (baseQuery cfg.rows))
    (eager.map (fun t => (MemoKey.plain t, none))) []
    cfg.searchFields search
  have hf := condFilters_spec (!active.isEmpty && !cfg.filters.isEmpty)
    (if cfg.searchSupported && !search.isEmpty then
      applySearch (baseQuery cfg.rows)
        (if cfg.simple_list_pager then none else some (baseQuery cfg.rows))
        (eager.map (fun t => (MemoKey.plain t, none))) [] cfg.searchFields search
     else (baseQuery cfg.rows,
       (if cfg.simple_list_pager then none else some (baseQuery cfg.rows)),
       eager.map (fun t => (MemoKey.plain t, none)), [])).1
    (if cfg.searchSupported && !search.isEmpty then
      applySearch (baseQuery cfg.rows)
        (if cfg.simple_list_pager then none else some (baseQuery cfg.rows))
        (eager.map (fun t => (MemoKey.plain t, none))) [] cfg.searchFields search
     else (baseQuery cfg.rows,
       (if cfg.simple_list_pager then none else some (baseQuery cfg.rows)),
       eager.map (fun t => (MemoKey.plain t, none)), [])).2.1
    (if cfg.searchSupported && !search.isEmpty then
      applySearch (baseQuery cfg.rows)
        (if cfg.simple_list_pager then none else some (baseQuery cfg.rows))
        (eager.map (fun t => (MemoKey.plain t, none))) [] cfg.searchFields search
     else (baseQuery cfg.rows,
       (if cfg.simple_list_pager then none else some (baseQuery cfg.rows)),
       eager.map (fun t => (MemoKey.plain t, none)), [])).2.2.1
    (if cfg.searchSupported && !search.isEmpty then
      applySearch (baseQuery cfg.rows)
        (if cfg.simple_list_pager then none else some (baseQuery cfg.rows))
        (eager.map (fun t => (MemoKey.plain t, none))) [] cfg.searchFields search
     else (baseQuery cfg.rows,
       (if cfg.simple_list_pager then none else some (baseQuery cfg.rows)),
       eager.map (fun t => (MemoKey.plain t, none)), [])).2.2.2
    cfg.filters active
  refine ⟨?_, ?_, ?_, ?_, ?_, ?_⟩
  · rw [hf.1, hs.1]; rfl
  · rw [hf.2.1, hs.2.1]; rfl
  · rw [hf.2.2.1, hs.2.2.1]; rfl
  · rw [hf.2.2.2.1, hs.2.2.2.1]; rfl
  · intro hsim
    rw [hsim] at hs hf ⊢
    exact hf.2.2.2.2.1 (hs.2.2.2.2.1 rfl)
  · intro hsim
    rw [hsim] at hs hf ⊢
    obtain ⟨c', hc', hr, hp⟩ := hs.2.2.2.2.2 (baseQuery cfg.rows) (by simp) rfl rfl
    obtain ⟨c2, hc2, hr2, hp2⟩ := hf.2.2.2.2.2 c' hc' hr hp
    exact ⟨c2, hc2, hr2, hp2⟩

theorem getListQ_spec (cfg : ViewCfg) (eager : List Item) (page : Option Nat)
    (sortSpec : Option ((Row → Row → Bool) × List Item))
    (search : Str) (active : List (Nat × Str × Str)) :
    (getListQ cfg eager page sortSpec search active).1
      = ((getListStage1 cfg eager search active).2.1).map Query.scalar ∧
    (getListQ cfg eager page sortSpec search active).2.rows
      = (getListStage1 cfg eager search active).1.rows ∧
    (getListQ cfg eager page sortSpec search active).2.preds
      = (getListStage1 cfg eager search active).1.preds ∧
    (getListQ cfg eager page sortSpec search active).2.lim = some cfg.page_size ∧
    (getListQ cfg eager page sortSpec search active).2.off
      = (match page with
         | some p => p * cfg.page_size
         | none => (getListStage1 cfg eager search active).1.off) := by
  simp only [getListQ]
  cases sortSpec with
  | none =>
    cases page with
    | none => refine ⟨?_, ?_, ?_, ?_, ?_⟩ <;> trivial
    | some p => refine ⟨?_, ?_, ?_, ?_, ?_⟩ <;> trivial
  | some ls =>
    obtain ⟨le, spath⟩ := ls
    have hj := applyPathJoins_query_fields (getListStage1 cfg eager search active).1
      (getListStage1 cfg eager search active).2.2.1 spath false
    cases page with
    | none =>
      refine ⟨?_, ?_, ?_, ?_, ?_⟩
      · trivial
      · exact hj.1
      · exact hj.2.1
      · trivial
      · exact hj.2.2.2.1
    | some p =>
      refine ⟨?_, ?_, ?_, ?_, ?_⟩
      · trivial
      · exact hj.1
      · exact hj.2.1
      · trivial
      · trivial

/-- C9: when `simple_list_pager` is false, the count `get_list` returns is
computed from a separate count query carrying exactly the same search and
filter predicates as the row query and no sorting or pagination, so it
equals the length of the row query's filtered, unpaginated result set;
when `simple_list_pager` is true the count is `None`. -/
theorem claim_C9_count_parity (cfg : ViewCfg) (eager : List Item) (page : Option Nat)
    (sortSpec : Option ((Row → Row → Bool) × List Item))
    (search : Str) (active : List (Nat × Str × Str)) :
    (getListQ cfg eager page sortSpec search active).1
      = if cfg.simple_list_pager then none
        else some ((getListQ cfg eager page sortSpec search active).2.results.length) := by
  have hq := getListQ_spec cfg eager page sortSpec search active
  have hst := getListStage1_spec cfg eager search active
  cases hsim : cfg.simple_list_pager with
  | true =>
    rw [hq.1, hst.2.2.2.2.1 hsim]
    rfl
  | false =>
    obtain ⟨c', hc', hr, hp⟩ := hst.2.2.2.2.2 hsim
    rw [hq.1, hc']
    have hres : c'.results = (getListQ cfg eager page sortSpec search active).2.results := by
      simp only [Query.results]
      rw [hr, hp, hq.2.1, hq.2.2.1]
    simp only [Option.map, Query.scalar, hres, Bool.false_eq_true, reduceIte]

theorem queryAll_length_le (q : Query) (n : Nat) (h : q.lim = some n) :
    q.all.length ≤ n := by
  simp only [Query.all, h]
  exact List.length_take_le _ _

/-- C10: the row query of `get_list` always carries `LIMIT page_size` —
also when `page` is `None` — and carries `OFFSET page * page_size` exactly
when `page` is given; consequently the executed result has at most
`page_size` rows. -/
theorem claim_C10_pagination (cfg : ViewCfg) (eager : List Item)
    (sortSpec : Option ((Row → Row → Bool) × List Item))
    (search : Str) (active : List (Nat × Str × Str)) :
    (∀ page, (getListQ cfg eager page sortSpec search active).2.lim = some cfg.page_size) ∧
    (∀ p, (getListQ cfg eager (some p) sortSpec search active).2.off = p * cfg.page_size) ∧
    ((getListQ cfg eager none sortSpec search active).2.off = 0) ∧
    (∀ page, (getList cfg eager page sortSpec search active).2.length ≤ cfg.page_size) := by
  refine ⟨?_, ?_, ?_, ?_⟩
  · intro page; exact (getListQ_spec cfg eager page sortSpec search active).2.2.2.1
  · intro p; exact (getListQ_spec cfg eager (some p) sortSpec search active).2.2.2.2
  · rw [(getListQ_spec cfg eager none sortSpec search active).2.2.2.2]
    exact (getListStage1_spec cfg eager search active).2.2.1
  · intro page
    exact queryAll_length_le _ _ (getListQ_spec cfg eager page sortSpec search active).2.2.2.1

/-- C5 (code bug): `get_list` seeds the join memo with bare-table keys
(`joins[table] = None`) intending to prevent re-joining eager-loaded
tables, but `_apply_path_joins` looks keys up as `(inner_join, item)`
tuples, so the seeded entries are never found.  Concretely: with table `0`
recorded as eager-joined and a searchable column whose join path is that
same table, applying the one-term search `"a"` performs a join of table
`0` anyway — the join record of the resulting row query contains it. -/
theorem claim_C5_eager_join_bug :
    ((getListQ
        { rows := [], page_size := 20, simple_list_pager := true,
          searchSupported := true,
          searchFields := [(fun r => r.getD 0 [], [Item.table 0])],
          filters := [] }
        [Item.table 0] none none "a".toList []).2).joinsRec
      = [(false, Item.table 0, none, none)] := by
  decide

/-- C2: whenever the body of `create_model`, `update_model` or
`delete_model` raises, the nested transaction scope is rolled back, the
surrounding transaction is doomed, the operation returns its failure value
instead of propagating the exception (the handlers are total functions),
and a user-facing flash message is emitted: an `IntegrityError` produces
the integrity-error flash and is not logged, while every other exception
is flashed with the handler-specific failure message and logged. -/
theorem claim_C2_mutation_failure :
    ∀ (ex : Exc) (msg : Str) (st : WebState),
      (create_model (.error ex) st).1 = none ∧
      (update_model (.error ex) st).1 = false ∧
      (delete_model (.error ex) st).1 = false ∧
      ((create_model (.error ex) st).2).nestedRolledBack = true ∧
      ((update_model (.error ex) st).2).nestedRolledBack = true ∧
      ((delete_model (.error ex) st).2).nestedRolledBack = true ∧
      ((create_model (.error ex) st).2).doomed = true ∧
      ((update_model (.error ex) st).2).doomed = true ∧
      ((delete_model (.error ex) st).2).doomed = true ∧
      ((create_model (.error (.integrityError msg)) st).2).flashes
        = (FlashMsg.integrity msg, "error".toList) :: st.flashes ∧
      ((create_model (.error (.integrityError msg)) st).2).logged = st.logged ∧
      ((update_model (.error (.integrityError msg)) st).2).flashes
        = (FlashMsg.integrity msg, "error".toList) :: st.flashes ∧
      ((update_model (.error (.integrityError msg)) st).2).logged = st.logged ∧
      ((delete_model (.error (.integrityError msg)) st).2).flashes
        = (FlashMsg.integrity msg, "error".toList) :: st.flashes ∧
      ((delete_model (.error (.integrityError msg)) st).2).logged = st.logged ∧
      ((create_model (.error (.other msg)) st).2).flashes
        = (FlashMsg.createFailed msg, "error".toList) :: st.flashes ∧
      ((create_model (.error (.other msg)) st).2).logged
        = "create".toList :: st.logged ∧
      ((update_model (.error (.other msg)) st).2).flashes
        = (FlashMsg.updateFailed msg, "error".toList) :: st.flashes ∧
      ((update_model (.error (.other msg)) st).2).logged
        = "update".toList :: st.logged ∧
      ((delete_model (.error (.other msg)) st).2).flashes
        = (FlashMsg.deleteFailed msg, "error".toList) :: st.flashes ∧
      ((delete_model (.error (.other msg)) st).2).logged
        = "delete".toList :: st.logged := by
  intro ex msg st
  cases ex <;>
    exact ⟨rfl, rfl, rfl, rfl, rfl, rfl, rfl, rfl, rfl, rfl, rfl, rfl, rfl, rfl,
      rfl, rfl, rfl, rfl, rfl, rfl, rfl⟩

/-! ## The composite-key codec -/

theorem iterdecodeAux_escape (v : Str) :
    ∀ (rest acc : Str),
    iterdecodeAux (escape v ++ rest) false acc
      = iterdecodeAux rest false (v.reverse ++ acc) := by
  induction v with
  | nil => intro rest acc; simp [escape]
  | cons c cs ih =>
    intro rest acc
    by_cases hc1 : c = escChar
    · subst hc1
      have he : escape (escChar :: cs) = escChar :: escChar :: escape cs := by
        simp [escape]
      have h1 : iterdecodeAux (escChar :: escChar :: (escape cs ++ rest)) false acc
          = iterdecodeAux (escChar :: (escape cs ++ rest)) true acc := by
        simp [iterdecodeAux]
      have h2 : iterdecodeAux (escChar :: (escape cs ++ rest)) true acc
          = iterdecodeAux (escape cs ++ rest) false (escChar :: acc) := by
        simp [iterdecodeAux]
      rw [he]
      simp only [List.cons_append]
      rw [h1, h2, ih rest (escChar :: acc)]
      simp
    · by_cases hc2 : c = sepChar
      · subst hc2
        have he : escape (sepChar :: cs) = escChar :: sepChar :: escape cs := by
          simp [escape]
        have h1 : iterdecodeAux (escChar :: sepChar :: (escape cs ++ rest)) false acc
            = iterdecodeAux (sepChar :: (escape cs ++ rest)) true acc := by
          simp [iterdecodeAux]
        have h2 : iterdecodeAux (sepChar :: (escape cs ++ rest)) true acc
            = iterdecodeAux (escape cs ++ rest) false (sepChar :: acc) := by
          simp [iterdecodeAux]
        rw [he]
        simp only [List.cons_append]
        rw [h1, h2, ih rest (sepChar :: acc)]
        simp
      · have he : escape (c :: cs) = c :: escape cs := by
          simp [escape, hc1, hc2]
        have h1 : iterdecodeAux (c :: (escape cs ++ rest)) false acc
            = iterdecodeAux (escape cs ++ rest) false (c :: acc) := by
          simp [iterdecodeAux, hc1, hc2]
        rw [he]
        simp only [List.cons_append]
        rw [h1, ih rest (c :: acc)]
        simp

theorem iterencode_roundtrip (vs : List Str) (h : vs ≠ []) :
    iterdecode (iterencode vs) = vs := by
  induction vs with
  | nil => exact absurd rfl h
  | cons v rest ih =>
    cases rest with
    | nil =>
      show iterdecodeAux (iterencode [v]) false [] = [v]
      have he : iterencode [v] = escape v ++ [] := by simp [iterencode]
      rw [he, iterdecodeAux_escape v [] []]
      simp [iterdecodeAux]
    | cons w ws =>
      have ihr : iterdecode (iterencode (w :: ws)) = w :: ws := ih (by simp)
      show iterdecodeAux (iterencode (v :: w :: ws)) false [] = v :: w :: ws
      have he : iterencode (v :: w :: ws)
          = escape v ++ (sepChar :: iterencode (w :: ws)) := rfl
      rw [he, iterdecodeAux_escape v (sepChar :: iterencode (w :: ws)) []]
      have hsep : iterdecodeAux (sepChar :: iterencode (w :: ws)) false (v.reverse ++ [])
          = (v.reverse ++ []).reverse :: iterdecodeAux (iterencode (w :: ws)) false [] := by
        have hne : ¬sepChar = escChar := by decide
        simp [iterdecodeAux, hne]
      rw [hsep]
      simp only [List.append_nil, List.reverse_reverse]
      rw [show iterdecodeAux (iterencode (w :: ws)) false [] = iterdecode (iterencode (w :: ws)) from rfl,
        ihr]

theorem escape_id (v : Str) (h1 : escChar ∉ v) (h2 : sepChar ∉ v) : escape v = v := by
  induction v with
  | nil => rfl
  | cons c cs ih =>
    have hc1 : ¬c = escChar := fun h => h1 (h ▸ List.mem_cons_self c cs)
    have hc2 : ¬c = sepChar := fun h => h2 (h ▸ List.mem_cons_self c cs)
    have hr := ih (fun h => h1 (List.mem_cons_of_mem c h))
      (fun h => h2 (List.mem_cons_of_mem c h))
    simp [escape, hc1, hc2, hr]

/-- C3 (amended): the multi-column codec is order-preserving and
reversible — `iterdecode` recovers exactly the encoded values in order, so
`get_one` applied to `get_pk_value` of an instance finds that instance by
its key tuple; a single-column key, however, passes through `tools.escape`,
which is the identity exactly on values free of the codec's escape (`.`)
and separator (`,`) characters. -/
theorem claim_C3_codec :
    (∀ vs : List Str, vs ≠ [] → iterdecode (iterencode vs) = vs) ∧
    (∀ (attrs : List Nat) (m : Nat → Str) (db : List (List Str × Nat))
       (e : List Str × Nat),
      attrs ≠ [] →
      db.find? (fun x => x.1 == attrs.map m) = some e →
      get_one db (get_pk_value (.multi attrs) m) = some e.2) ∧
    (∀ (a : Nat) (m : Nat → Str), escChar ∉ m a → sepChar ∉ m a →
      get_pk_value (.single a) m = m a) := by
  refine ⟨iterencode_roundtrip, ?_, ?_⟩
  · intro attrs m db e hne hfind
    have hmapne : attrs.map m ≠ [] := by
      cases attrs with
      | nil => exact absurd rfl hne
      | cons a as => simp
    show (db.find? (fun x => x.1 == iterdecode (iterencode (attrs.map m)))).map (fun x => x.2)
        = some e.2
    rw [iterencode_roundtrip (attrs.map m) hmapne, hfind]
    rfl
  · intro a m h1 h2
    exact escape_id (m a) h1 h2

/-- Witness for C3's amended theorem at concrete inputs: a two-value key
containing both special characters round-trips, `get_one` finds the
encoded instance, and an ordinary single-key value passes through
unchanged. -/
theorem claim_C3_codec_witness :
    iterdecode (iterencode ["a.b".toList, "c,d".toList])
      = ["a.b".toList, "c,d".toList] ∧
    get_one [(["x".toList, "y".toList], 7)]
        (get_pk_value (.multi [0, 1])
          (fun i => if i = 0 then "x".toList else "y".toList)) = some 7 ∧
    get_pk_value (.single 0) (fun _ => "ab".toList) = "ab".toList :=
  ⟨claim_C3_codec.1 _ (by decide),
   claim_C3_codec.2.1 [0, 1] (fun i => if i = 0 then "x".toList else "y".toList)
     [(["x".toList, "y".toList], 7)] (["x".toList, "y".toList], 7)
     (by decide) (by decide),
   claim_C3_codec.2.2 0 (fun _ => "ab".toList) (by decide) (by decide)⟩

/-- Counterexample to C3's single-key clause as stated: a single-column
primary-key value containing the escape character does not pass through
unencoded — `get_pk_value` escapes it. -/
theorem claim_C3_counterexample :
    get_pk_value (.single 0) (fun _ => "a.b".toList) ≠ "a.b".toList := by
  decide

/-! ## `action_delete`: fast vs slow path -/

theorem foldDelete_all_ok (ok : Row → Bool) (ms : List Row) :
    ∀ (db : List Row) (c : Nat), (∀ m ∈ ms, ok m = true) →
    ms.foldl (fun st m => if ok m then (removeRow st.1 m, st.2 + 1) else st) (db, c)
      = (ms.foldl removeRow db, c + ms.length) := by
  induction ms with
  | nil => intro db c _; simp
  | cons m ms' ih =>
    intro db c hall
    have hm : ok m = true := hall m (List.mem_cons_self m ms')
    simp only [List.foldl_cons, hm, reduceIte]
    rw [ih (removeRow db m) (c + 1) (fun x hx => hall x (List.mem_cons_of_mem m hx))]
    simp only [List.foldl_cons, List.length_cons, Prod.mk.injEq]
    exact ⟨trivial, by omega⟩

theorem foldDelete_count (ok : Row → Bool) (ms : List Row) :
    ∀ (db : List Row) (c : Nat),
    (ms.foldl (fun st m => if ok m then (removeRow st.1 m, st.2 + 1) else st) (db, c)).2
      = c + (ms.filter ok).length := by
  induction ms with
  | nil => intro db c; simp
  | cons m ms' ih =>
    intro db c
    cases hm : ok m with
    | true =>
      simp only [List.foldl_cons, hm, reduceIte, List.filter_cons_of_pos hm]
      rw [ih (removeRow db m) (c + 1)]
      simp only [List.length_cons]
      omega
    | false =>
      have hflt : List.filter ok (m :: ms') = List.filter ok ms' := by
        simp [List.filter_cons, hm]
      simp only [List.foldl_cons, hm, Bool.false_eq_true, reduceIte, hflt]
      exact ih db c

theorem foldRemove_head_ne (ms : List Row) :
    ∀ (acc : List Row) (r : Row), (∀ m ∈ ms, ¬r = m) →
    ms.foldl removeRow (r :: acc) = r :: ms.foldl removeRow acc := by
  induction ms with
  | nil => intro acc r _; rfl
  | cons m ms' ih =>
    intro acc r hall
    have hr : ¬r = m := hall m (List.mem_cons_self m ms')
    simp only [List.foldl_cons, removeRow, if_neg hr]
    exact ih (removeRow acc m) r (fun x hx => hall x (List.mem_cons_of_mem m hx))

theorem foldRemove_filter (p : Row → Bool) :
    ∀ (db : List Row), db.Nodup →
    (db.filter p).foldl removeRow db = db.filter (fun r => !p r) := by
  intro db
  induction db with
  | nil => intro _; rfl
  | cons r rs ih =>
    intro hnd
    have hr : r ∉ rs := (List.nodup_cons.1 hnd).1
    have hnd' : rs.Nodup := (List.nodup_cons.1 hnd).2
    cases hp : p r with
    | true =>
      rw [List.filter_cons_of_pos hp, List.foldl_cons]
      have hrem : removeRow (r :: rs) r = rs := by simp [removeRow]
      rw [hrem, ih hnd', List.filter_cons_of_neg (by simp [hp])]
    | false =>
      rw [List.filter_cons_of_neg (by simp [hp])]
      have hne : ∀ m ∈ rs.filter p, ¬r = m := by
        intro m hm hrm
        exact hr (hrm ▸ (List.mem_filter.1 hm).1)
      rw [foldRemove_head_ne (rs.filter p) rs r hne, ih hnd',
        List.filter_cons_of_pos (by simp [hp])]

/-- C7: when every matching row's per-object deletion succeeds (and the
database has no duplicate rows), the fast bulk-`DELETE` path and the slow
object-by-object path of `action_delete` remove exactly the same rows and
flash the same count, namely the number of rows matching `ids`; on the
slow path, the flashed count is in general the number of `delete_model`
calls that returned `True`. -/
theorem claim_C7_action_delete :
    (∀ (pk : Row → Str) (ok : Row → Bool) (db : List Row) (ids : List Str),
      db.Nodup →
      (∀ r ∈ db, ids.contains (pk r) = true → ok r = true) →
      action_delete true pk ok db ids = action_delete false pk ok db ids ∧
      (action_delete true pk ok db ids).2
        = (db.filter (fun r => ids.contains (pk r))).length) ∧
    (∀ (pk : Row → Str) (ok : Row → Bool) (db : List Row) (ids : List Str),
      (action_delete false pk ok db ids).2
        = ((db.filter (fun r => ids.contains (pk r))).filter ok).length) := by
  constructor
  · intro pk ok db ids hnd hall
    have hmok : ∀ m ∈ db.filter (fun r => ids.contains (pk r)), ok m = true := by
      intro m hm
      have h := List.mem_filter.1 hm
      exact hall m h.1 h.2
    have hslow : action_delete false pk ok db ids
        = ((db.filter (fun r => ids.contains (pk r))).foldl removeRow db,
           0 + (db.filter (fun r => ids.contains (pk r))).length) := by
      simp only [action_delete, Bool.false_eq_true, reduceIte]
      exact foldDelete_all_ok ok _ db 0 hmok
    have hfold : (db.filter (fun r => ids.contains (pk r))).foldl removeRow db
        = db.filter (fun r => !ids.contains (pk r)) :=
      foldRemove_filter (fun r => ids.contains (pk r)) db hnd
    constructor
    · rw [hslow, hfold]
      simp [action_delete]
    · simp [action_delete]
  · intro pk ok db ids
    simp only [action_delete, Bool.false_eq_true, reduceIte]
    rw [foldDelete_count ok (db.filter (fun r => ids.contains (pk r))) db 0]
    omega

/-- Witness for C7 at a concrete input: three singleton rows, two matching
ids, every deletion succeeding — both paths agree and report 2 deletions. -/
theorem claim_C7_action_delete_witness :
    action_delete true (fun r => r.getD 0 []) (fun _ => true)
        [["1".toList], ["2".toList], ["3".toList]] ["1".toList, "3".toList]
      = action_delete false (fun r => r.getD 0 []) (fun _ => true)
        [["1".toList], ["2".toList], ["3".toList]] ["1".toList, "3".toList] ∧
    (action_delete true (fun r => r.getD 0 []) (fun _ => true)
        [["1".toList], ["2".toList], ["3".toList]] ["1".toList, "3".toList]).2 = 2 := by
  have h := claim_C7_action_delete.1 (fun r => r.getD 0 []) (fun _ => true)
    [["1".toList], ["2".toList], ["3".toList]] ["1".toList, "3".toList]
    (by decide) (fun r _ _ => rfl)
  refine ⟨h.1, ?_⟩
  rw [h.2]
  decide
